import Mathlib

/-!
Shallow embedding of the crate-spec container codec and signature engine
(`src/utils/context.rs`, `src/utils/decode.rs`, `src/utils/from_toml.rs`,
`src/network.rs`).  Byte strings are modelled as `List Nat` (each element a
byte value), Rust `Result<T, CrateSpecError>` as `Except CrateSpecError T`,
and the SHA-256 primitive of `PKCS::gen_digest_256` as an explicit function
parameter, since only the *scope* of the hashed bytes is at issue.
-/

namespace CrateSpec

/-- Error taxonomy from `src/error.rs` (`CrateSpecError`).  `Io` carries the
display string of the wrapped `io::Error`; `FileNotFound` carries the path. -/
inductive CrateSpecError where
  | Io (msg : String)
  | FileNotFound (path : String)
  | ConfigError (msg : String)
  | ValidationError (msg : String)
  | NetworkError (msg : String)
  | PkiError (msg : String)
  | SignatureError (msg : String)
  | DecodeError (msg : String)
  | EncodeError (msg : String)
  | ParseError (msg : String)
  | Other (msg : String)
  deriving DecidableEq, Repr

/-- Whether an error is the `DecodeError` variant. -/
def CrateSpecError.isDecodeError : CrateSpecError → Bool
  | .DecodeError _ => true
  | _ => false

/-- Constant `STRING_LENGTH_PREFIX_BYTES` from `src/utils/context.rs`. -/
def STRING_LENGTH_PREFIX_BYTES : Nat := 4

/-- Constant `NOT_SIG_NUM` from `src/utils/context.rs`. -/
def NOT_SIG_NUM : Nat := 3

/- ----------------------------------------------------------------------
`PackageContext::binary_before_sig` (src/utils/context.rs, lines 144-163).

The `CratePackage` / `SectionIndex` types live in `utils/package.rs`, which
is not among the sources; `binary_before_sig` only consumes five numbers
derived from them (`ds_offset`, `datasection_size_without_sig()`,
`si_offset`, `none_sig_size()`, `si_size`), so we take those directly as
parameters.
---------------------------------------------------------------------- -/

/-- Zero out the elements of a list whose index `i` (counting from `start`)
satisfies `lo ≤ i < hi`.  This is the Lean rendering of the Rust loop
`for i in buf.iter_mut().take(zero_end).skip(zero_begin) { *i = 0 }`. -/
def zeroRangeAux (lo hi : Nat) : Nat → List Nat → List Nat
  | _, [] => []
  | i, b :: rest => (if lo ≤ i ∧ i < hi then 0 else b) :: zeroRangeAux lo hi (i + 1) rest

/-- `PackageContext::binary_before_sig` from `src/utils/context.rs`:
truncate the encoded image to `ds_offset + datasection_size_without_sig()`
bytes and zero the byte range
`[si_offset + none_sig_size(), si_offset + si_size)` inside it. -/
def binary_before_sig (ds_offset ds_size_without_sig si_offset none_sig_size si_size : Nat)
    (bin : List Nat) : List Nat :=
  let total_size := ds_offset + ds_size_without_sig
  let buf := bin.take total_size
  let zero_begin := si_offset + none_sig_size
  let zero_end := si_offset + si_size
  zeroRangeAux zero_begin zero_end 0 buf

/- ----------------------------------------------------------------------
`SrcTypePath` (src/utils/context.rs, lines 300-333).
---------------------------------------------------------------------- -/

/-- Dependency source type `SrcTypePath` from `src/utils/context.rs`. -/
inductive SrcTypePath where
  | CratesIo
  | Git (s : String)
  | Url (s : String)
  | Registry (s : String)
  | P2p (s : String)
  deriving DecidableEq, Repr

/-- `SrcTypePath::as_u8` from `src/utils/context.rs`. -/
def SrcTypePath.as_u8 : SrcTypePath → Nat
  | .CratesIo => 0
  | .Git _ => 1
  | .Url _ => 2
  | .Registry _ => 3
  | .P2p _ => 4

/-- `SrcTypePath::from_u8_with_path` from `src/utils/context.rs`: 0..=4 map
to the variants, anything else is a `ParseError`. -/
def SrcTypePath.from_u8_with_path (value : Nat) (path : String) :
    Except CrateSpecError SrcTypePath :=
  match value with
  | 0 => .ok .CratesIo
  | 1 => .ok (.Git path)
  | 2 => .ok (.Url path)
  | 3 => .ok (.Registry path)
  | 4 => .ok (.P2p path)
  | _ => .error (.ParseError ("无效的依赖源类型: " ++ toString value))

/-- Source path stored for a dependency by
`DepInfo::write_to_dep_table_entry` (src/utils/context.rs, lines 265-287):
the wrapped path string, or the empty string for the crates-io variant. -/
def SrcTypePath.src_path : SrcTypePath → String
  | .CratesIo => ""
  | .Git s => s
  | .Url s => s
  | .Registry s => s
  | .P2p s => s

/- ----------------------------------------------------------------------
`StringTable` (src/utils/context.rs, lines 335-431).

Rust `String` values are modelled by their UTF-8 byte sequences
(`List Nat`); string equality coincides with byte equality, and
`as_bytes().len()` is `List.length`.  The two `HashMap`s are modelled as
association lists whose insert replaces in place or appends; the map
iteration order is never observable (`to_bytes` sorts the keys).
---------------------------------------------------------------------- -/

/-- Association-list lookup; models `HashMap::get`. -/
def alLookup {K V : Type} [DecidableEq K] (k : K) : List (K × V) → Option V
  | [] => none
  | (k', v) :: rest => if k = k' then some v else alLookup k rest

/-- Association-list insert that replaces the value at an existing key in
place and appends a fresh key at the end; models `HashMap::insert`. -/
def alInsert {K V : Type} [DecidableEq K] (k : K) (v : V) : List (K × V) → List (K × V)
  | [] => [(k, v)]
  | (k', v') :: rest => if k = k' then (k, v) :: rest else (k', v') :: alInsert k v rest

/-- `StringTable` from `src/utils/context.rs`: the string-to-offset map,
the offset-to-string map, and the running byte size of the table. -/
structure StringTable where
  str2off : List (List Nat × Nat)
  off2str : List (Nat × List Nat)
  total_bytes : Nat
  deriving DecidableEq, Repr

/-- `StringTable::insert_str`: return the existing offset when the string
is already present, otherwise record the string at offset `total_bytes` and
advance `total_bytes` by the 4-byte length prefix plus the string bytes. -/
def StringTable.insert_str (t : StringTable) (st : List Nat) : StringTable × Nat :=
  match alLookup st t.str2off with
  | some offset => (t, offset)
  | none =>
      let st_len := st.length
      let ret_val := t.total_bytes
      ({ str2off := alInsert st t.total_bytes t.str2off,
         off2str := alInsert t.total_bytes st t.off2str,
         total_bytes := t.total_bytes + STRING_LENGTH_PREFIX_BYTES + st_len },
       ret_val)

/-- `StringTable::new`: the empty table with the empty string inserted by
the constructor. -/
def StringTable.new : StringTable :=
  (StringTable.insert_str { str2off := [], off2str := [], total_bytes := 0 } []).1

/-- `StringTable::str_by_off`: offset-to-string lookup, `Other` error when
the offset is unknown. -/
def StringTable.str_by_off (t : StringTable) (off : Nat) : Except CrateSpecError (List Nat) :=
  match alLookup off t.off2str with
  | some s => .ok s
  | none => .error (.Other ("字符串表中找不到偏移量: " ++ toString off))

/-- Little-endian 4-byte encoding of a `u32` length (`u32::to_le_bytes`
applied to `len as u32`). -/
def le32 (n : Nat) : List Nat :=
  [n % 256, n / 256 % 256, n / 65536 % 256, n / 16777216 % 256]

/-- Little-endian decoding of four bytes (`u32::from_le_bytes`). -/
def fromLe32 : List Nat → Nat
  | [b0, b1, b2, b3] => b0 + 256 * b1 + 65536 * b2 + 16777216 * b3
  | _ => 0

/-- Insert a number into an ascending list, keeping it ascending. -/
def insertSorted (x : Nat) : List Nat → List Nat
  | [] => [x]
  | y :: ys => if x ≤ y then x :: y :: ys else y :: insertSorted x ys

/-- Ascending sort of the offset keys; models `offs.sort()` inside
`StringTable::to_bytes`. -/
def sortNat (l : List Nat) : List Nat := l.foldr insertSorted []

/-- `StringTable::to_bytes`: collect the offsets, sort them ascending, and
emit `len.to_le_bytes() ++ bytes` for each entry in offset order. -/
def StringTable.to_bytes (t : StringTable) : List Nat :=
  let offs := sortNat (t.off2str.map Prod.fst)
  offs.foldl
    (fun bytes off =>
      match alLookup off t.off2str with
      | some st => bytes ++ le32 st.length ++ st
      | none => bytes)
    []

/-- Whether a byte is a UTF-8 continuation byte (`0x80..=0xBF`). -/
def isCont (b : Nat) : Bool := decide (128 ≤ b ∧ b ≤ 191)

/-- UTF-8 validity of a byte sequence (RFC 3629), the success condition of
`String::from_utf8` used by `StringTable::read_bytes`. -/
def isValidUtf8 : List Nat → Bool
  | [] => true
  | b :: rest =>
    if b ≤ 127 then isValidUtf8 rest
    else if 194 ≤ b ∧ b ≤ 223 then
      match rest with
      | c1 :: rest' => isCont c1 && isValidUtf8 rest'
      | [] => false
    else if b = 224 then
      match rest with
      | c1 :: c2 :: rest' => decide (160 ≤ c1 ∧ c1 ≤ 191) && isCont c2 && isValidUtf8 rest'
      | _ => false
    else if (225 ≤ b ∧ b ≤ 236) ∨ b = 238 ∨ b = 239 then
      match rest with
      | c1 :: c2 :: rest' => isCont c1 && isCont c2 && isValidUtf8 rest'
      | _ => false
    else if b = 237 then
      match rest with
      | c1 :: c2 :: rest' => decide (128 ≤ c1 ∧ c1 ≤ 159) && isCont c2 && isValidUtf8 rest'
      | _ => false
    else if b = 240 then
      match rest with
      | c1 :: c2 :: c3 :: rest' =>
          decide (144 ≤ c1 ∧ c1 ≤ 191) && isCont c2 && isCont c3 && isValidUtf8 rest'
      | _ => false
    else if 241 ≤ b ∧ b ≤ 243 then
      match rest with
      | c1 :: c2 :: c3 :: rest' => isCont c1 && isCont c2 && isCont c3 && isValidUtf8 rest'
      | _ => false
    else if b = 244 then
      match rest with
      | c1 :: c2 :: c3 :: rest' =>
          decide (128 ≤ c1 ∧ c1 ≤ 143) && isCont c2 && isCont c3 && isValidUtf8 rest'
      | _ => false
    else false

/-- The `while i < bytes.len()` loop of `StringTable::read_bytes`
(src/utils/context.rs, lines 409-430): read a 4-byte little-endian length
prefix at `i`, fail with `DecodeError` when the prefix or the string body
would extend past the buffer, fail with `DecodeError` on invalid UTF-8,
otherwise record the string at offset `i` in both maps, set `total_bytes`
to the new position, and continue. -/
def readBytesGo (bytes : List Nat) (i : Nat) (t : StringTable) :
    Except CrateSpecError StringTable :=
  if h : i < bytes.length then
    if bytes.length < i + STRING_LENGTH_PREFIX_BYTES then
      .error (.DecodeError "字符串表数据不完整")
    else
      let len := fromLe32 ((bytes.drop i).take STRING_LENGTH_PREFIX_BYTES)
      if bytes.length < i + STRING_LENGTH_PREFIX_BYTES + len then
        .error (.DecodeError "字符串表数据不完整")
      else
        let st := (bytes.drop (i + STRING_LENGTH_PREFIX_BYTES)).take len
        if isValidUtf8 st then
          readBytesGo bytes (i + STRING_LENGTH_PREFIX_BYTES + len)
            { str2off := alInsert st i t.str2off,
              off2str := alInsert i st t.off2str,
              total_bytes := i + STRING_LENGTH_PREFIX_BYTES + len }
        else
          .error (.DecodeError "UTF-8 解码失败")
  else .ok t
termination_by bytes.length - i
decreasing_by
  simp_wf
  simp only [STRING_LENGTH_PREFIX_BYTES] at *
  omega

/-- `StringTable::read_bytes`: run the parse loop from position 0. -/
def StringTable.read_bytes (t : StringTable) (bytes : List Nat) :
    Except CrateSpecError StringTable :=
  readBytesGo bytes 0 t

/-- Fold a list of insertions into a string table, discarding the returned
offsets; describes an arbitrary usage history of `insert_str`. -/
def insertAll (t : StringTable) : List (List Nat) → StringTable
  | [] => t
  | s :: rest => insertAll (t.insert_str s).1 rest

/-- Consistency invariant of a string table: the two maps are mutually
inverse, and every recorded offset lies below `total_bytes`. -/
def TableInv (t : StringTable) : Prop :=
  (∀ s o, alLookup s t.str2off = some o → alLookup o t.off2str = some s) ∧
  (∀ s o, alLookup s t.str2off = some o → o < t.total_bytes)

/-- Alignment invariant for the amended C8: the running size and every
recorded offset are multiples of 4. -/
def AlignedInv (t : StringTable) : Prop :=
  t.total_bytes % 4 = 0 ∧ ∀ s o, alLookup s t.str2off = some o → o % 4 = 0

/-- Byte emission of string-table entries in list order: 4-byte length
prefix then the string bytes for each entry. -/
def emitEntries : List (Nat × List Nat) → List Nat
  | [] => []
  | (_, st) :: rest => le32 st.length ++ st ++ emitEntries rest

/-- Loop invariant of `readBytesGo`: either the entries recorded so far
emit exactly the prefix `bytes.take i` and sit at strictly ascending
offsets below `i`, or the loop has not yet run and the offset map holds
only the constructor's empty string at offset 0. -/
def ReadInv (bytes : List Nat) (i : Nat) (t : StringTable) : Prop :=
  (List.Pairwise (· < ·) (t.off2str.map Prod.fst) ∧
    (∀ k ∈ t.off2str.map Prod.fst, k < i) ∧
    emitEntries t.off2str = bytes.take i) ∨
  (i = 0 ∧ t.off2str = [(0, [])])

/- ----------------------------------------------------------------------
`PkiClient` (src/network.rs, lines 203-372).

The HTTP endpoint is abstracted as a function from the attempt number to
the outcome of that POST; everything after `send()` is translated
branch-for-branch from the source.
---------------------------------------------------------------------- -/

/-- `BaseConfig` from `src/network.rs`. -/
structure BaseConfig where
  algo : String
  kms : String
  flow : String
  deriving DecidableEq, Repr

/-- Parsed body of a success-status `sign/digest` response
(`SignDigestResponse`; the echoed `base_config` is never inspected). -/
structure SignDigestResponse where
  signature : String
  cert : Option String
  deriving DecidableEq, Repr

/-- Parsed body of a success-status `verify/digest` response
(`VerifyDigestResponse`; the echoed `base_config` is never inspected). -/
structure VerifyDigestResponse where
  result : String
  error : Option String
  deriving DecidableEq, Repr

/-- Outcome of one HTTP POST attempt: a transport-level error
(`retryable` is reqwest's `e.is_timeout() || e.is_connect() ||
e.is_request()`, `emsg` its display string), a response with non-success
status (status text and body text), or a success-status response whose
JSON parse yields a body or a parse-error message. -/
inductive HttpOutcome (β : Type) where
  | transport (retryable : Bool) (emsg : String)
  | httpErr (status : String) (errText : String)
  | httpOk (parsed : Except String β)

/-- Result of a PKI call together with the number of HTTP attempts made
and the number of fixed `retry_delay` sleeps performed before it
returned. -/
structure PkiCallTrace (α : Type) where
  result : Except String α
  calls : Nat
  sleeps : Nat

/-- The `for attempt in 0..=self.retry_times` loop of
`PkiClient::sign_digest` (src/network.rs, lines 251-295).  `rem` counts
the loop iterations still allowed (`retry_times + 1 - attempt`); when it
reaches 0 the loop has ended and the function falls through to the final
"已重试" error — unreachable from `sign_digest`, because the iteration at
`attempt = retry_times` never continues. -/
def signDigestGo (outcomes : Nat → HttpOutcome SignDigestResponse)
    (retry_times : Nat) (url : String) :
    Nat → Nat → Nat → Nat → Option String → PkiCallTrace (String × Option String)
  | _, 0, calls, sleeps, lastError =>
    ⟨.error ("签名请求失败（已重试 " ++ toString retry_times ++ " 次）: " ++
        lastError.getD "未知错误"), calls, sleeps⟩
  | attempt, rem + 1, calls, sleeps, _ =>
    match outcomes attempt with
    | .transport retryable emsg =>
        if retryable ∧ attempt < retry_times then
          signDigestGo outcomes retry_times url (attempt + 1) rem (calls + 1) (sleeps + 1)
            (some ("网络连接失败: " ++ emsg ++ " (URL: " ++ url ++ ")"))
        else
          ⟨.error ("网络请求失败: " ++ emsg ++ " (URL: " ++ url ++ ")"), calls + 1, sleeps⟩
    | .httpErr status errText =>
        ⟨.error ("PKI 平台返回错误 (HTTP " ++ status ++ "): " ++ errText), calls + 1, sleeps⟩
    | .httpOk (.error e) => ⟨.error ("无法解析响应 JSON: " ++ e), calls + 1, sleeps⟩
    | .httpOk (.ok resp) => ⟨.ok (resp.signature, resp.cert), calls + 1, sleeps⟩

/-- `PkiClient::sign_digest`: run the attempt loop from attempt 0.  The
private key, digest and base config only fill the request body; they do
not influence the control flow abstracted here. -/
def sign_digest (outcomes : Nat → HttpOutcome SignDigestResponse)
    (retry_times : Nat) (url : String) : PkiCallTrace (String × Option String) :=
  signDigestGo outcomes retry_times url 0 (retry_times + 1) 0 0 none

/-- The attempt loop of `PkiClient::verify_digest` (src/network.rs, lines
314-365); identical retry structure to `sign_digest`, with the extra check
that a parsed response verifies only when its `result` field is `"OK"`. -/
def verifyDigestGo (outcomes : Nat → HttpOutcome VerifyDigestResponse)
    (retry_times : Nat) (url : String) :
    Nat → Nat → Nat → Nat → Option String → PkiCallTrace Bool
  | _, 0, calls, sleeps, lastError =>
    ⟨.error ("验签请求失败（已重试 " ++ toString retry_times ++ " 次）: " ++
        lastError.getD "未知错误"), calls, sleeps⟩
  | attempt, rem + 1, calls, sleeps, _ =>
    match outcomes attempt with
    | .transport retryable emsg =>
        if retryable ∧ attempt < retry_times then
          verifyDigestGo outcomes retry_times url (attempt + 1) rem (calls + 1) (sleeps + 1)
            (some ("网络连接失败: " ++ emsg ++ " (URL: " ++ url ++ ")"))
        else
          ⟨.error ("网络请求失败: " ++ emsg ++ " (URL: " ++ url ++ ")"), calls + 1, sleeps⟩
    | .httpErr status errText =>
        ⟨.error ("PKI 平台返回错误 (HTTP " ++ status ++ "): " ++ errText), calls + 1, sleeps⟩
    | .httpOk (.error e) => ⟨.error ("无法解析响应 JSON: " ++ e), calls + 1, sleeps⟩
    | .httpOk (.ok resp) =>
        if resp.result = "OK" then ⟨.ok true, calls + 1, sleeps⟩
        else ⟨.error ("验签失败: " ++ resp.error.getD "未知错误"), calls + 1, sleeps⟩

/-- `PkiClient::verify_digest`: run the attempt loop from attempt 0. -/
def verify_digest (outcomes : Nat → HttpOutcome VerifyDigestResponse)
    (retry_times : Nat) (url : String) : PkiCallTrace Bool :=
  verifyDigestGo outcomes retry_times url 0 (retry_times + 1) 0 0 none

/- ----------------------------------------------------------------------
`PackageContext::check_sigs` (src/utils/decode.rs, lines 110-179).
---------------------------------------------------------------------- -/

/-- Verification-relevant fields of `SigInfo` (src/utils/context.rs,
lines 463-470); the `pkcs` member only supplies `gen_digest_256`, which
ignores its receiver and is the SHA-256 parameter of the environment. -/
structure SigInfo where
  typ : Nat
  size : Nat
  bin : List Nat
  pub_key : Option String
  deriving DecidableEq, Repr

/-- `NetworkSignature` from `src/network.rs`. -/
structure NetworkSignature where
  pub_key : String
  signature : String
  algo : String
  flow : String
  kms : Option String
  key_id : Option String
  deriving DecidableEq, Repr

/-- Lower-case hexadecimal digit character for `0..15`. -/
def hexDigit (n : Nat) : Char :=
  if n < 10 then Char.ofNat (48 + n) else Char.ofNat (87 + n)

/-- `digest_to_hex_string` from `src/network.rs`: every byte printed as
two lower-case hex digits. -/
def digest_to_hex_string (digest : List Nat) : String :=
  String.mk (digest.foldr (fun b acc => hexDigit (b / 16 % 16) :: hexDigit (b % 16) :: acc) [])

/-- Verification-time collaborators of `check_sigs`: the SHA-256 primitive
(`PKCS::gen_digest_256`), the CMS verifier `PKCS::decode_pkcs_bin`
(returning the digest enclosed in the blob), the bincode decoder for
`NetworkSignature`, and the optional PKI client's `verify_digest` call,
specialised to (pub_key, digest hex, signature, base config). -/
structure CheckSigsEnv where
  sha256 : List Nat → List Nat
  decodePkcs : List Nat → List (List Nat) → Except CrateSpecError (List Nat)
  decodeNetSig : List Nat → Option NetworkSignature
  networkClient : Option (String → String → String → BaseConfig → Except String Bool)

/-- One arm of the `for siginfo in self.sigs` loop of `check_sigs`
(src/utils/decode.rs, lines 114-176): File (0) and CrateBin (1) signatures
compare the SHA-256 of the canonical buffer resp. the raw crate binary
against the digest extracted from the CMS blob; Network (2) signatures
deserialise the `NetworkSignature`, hash the raw crate binary, and call
the PKI verify endpoint; other discriminants are rejected. -/
def check_one_sig (env : CheckSigsEnv) (root_cas : List (List Nat))
    (bin_all bin_crate : List Nat) (siginfo : SigInfo) : Except CrateSpecError Unit :=
  if siginfo.typ = 0 ∨ siginfo.typ = 1 then
    let actual_digest := if siginfo.typ = 0 then env.sha256 bin_all else env.sha256 bin_crate
    match env.decodePkcs siginfo.bin root_cas with
    | .error e => .error e
    | .ok expect_digest =>
        if actual_digest = expect_digest then .ok ()
        else .error (.SignatureError "本地签名验证失败")
  else if siginfo.typ = 2 then
    match env.networkClient with
    | none => .error (.Other "网络签名需要设置 network_client")
    | some pki_verify =>
        match env.decodeNetSig siginfo.bin with
        | none => .error (.DecodeError "无法反序列化网络签名")
        | some network_sig =>
            let actual_digest := env.sha256 bin_crate
            let digest_hex := digest_to_hex_string actual_digest
            let base_config : BaseConfig :=
              ⟨network_sig.algo, network_sig.kms.getD "", network_sig.flow⟩
            match pki_verify network_sig.pub_key digest_hex network_sig.signature base_config with
            | .ok true => .ok ()
            | .ok false => .error (.SignatureError "网络签名验证失败")
            | .error e => .error (.PkiError e)
  else .error (.Other ("不支持的签名类型: " ++ toString siginfo.typ))

/-- The signature loop of `check_sigs`, verifying records in order and
stopping at the first failure. -/
def checkSigsLoop (env : CheckSigsEnv) (root_cas : List (List Nat))
    (bin_all bin_crate : List Nat) : List SigInfo → Except CrateSpecError Unit
  | [] => .ok ()
  | siginfo :: rest =>
    match check_one_sig env root_cas bin_all bin_crate siginfo with
    | .ok _ => checkSigsLoop env root_cas bin_all bin_crate rest
    | .error e => .error e

/-- `PackageContext::check_sigs`: canonicalise the image with
`binary_before_sig` (shadowing `bin_all` as in the source), take the raw
crate-binary section bytes, and verify every signature record. -/
def check_sigs (env : CheckSigsEnv) (root_cas : List (List Nat))
    (ds_offset dsw si_offset nss si_size : Nat) (bin_all bin_crate : List Nat)
    (sigs : List SigInfo) : Except CrateSpecError Unit :=
  checkSigsLoop env root_cas
    (binary_before_sig ds_offset dsw si_offset nss si_size bin_all) bin_crate sigs

/- ----------------------------------------------------------------------
`PackageContext::check_fingerprint` / `decode_from_crate_package`
(src/utils/decode.rs, lines 105-108 and 181-198).
---------------------------------------------------------------------- -/

/-- Constant `FINGERPRINT_LEN`.  Modelled from the spec: the constant is
declared in `utils/package.rs`, which is not among the sources; spec §3
fixes the trailer to 32 bytes ("32-byte fingerprint"). -/
def FINGERPRINT_LEN : Nat := 32

/-- `PackageContext::check_fingerprint`: recompute the digest over all but
the trailing `FINGERPRINT_LEN` bytes and compare with the trailer. -/
def check_fingerprint (sha256 : List Nat → List Nat) (bin_all : List Nat) : Bool :=
  decide (sha256 (bin_all.take (bin_all.length - FINGERPRINT_LEN)) =
    bin_all.drop (bin_all.length - FINGERPRINT_LEN))

/-- `PackageContext::decode_from_crate_package`: the fingerprint check
runs first and rejects with `DecodeError("fingerprint not right")`;
everything after it — `CratePackage::decode_from_slice` (in the absent
`utils/package.rs`), string-table parse, section reconstruction, and
`check_sigs` — is abstracted as the continuation `rest`. -/
def decode_from_crate_package {α : Type} (sha256 : List Nat → List Nat)
    (rest : List Nat → Except CrateSpecError α) (bin : List Nat) :
    Except CrateSpecError α :=
  if check_fingerprint sha256 bin then rest bin
  else .error (.DecodeError "fingerprint not right")

/- ----------------------------------------------------------------------
`CrateToml::write_dep_info_to_package_context`
(src/utils/from_toml.rs, lines 69-128).
---------------------------------------------------------------------- -/

/-- Shapes of a `toml::Value` relevant to a `[dependencies]` entry: a
string, a table (keys to values), or any other kind (integer, array, ...)
on which `as_str` / `as_table` fail. -/
inductive TomlVal where
  | vStr (s : String)
  | vTable (entries : List (String × TomlVal))
  | vOther

/-- `DepInfo` from `src/utils/context.rs` (its `Default` supplies
`ver_req = "default"`, `src = CratesIo`, `src_platform = "default"`,
`dump = true`). -/
structure DepInfo where
  name : String
  ver_req : String
  src : SrcTypePath
  src_platform : String
  dump : Bool
  deriving DecidableEq, Repr

/-- The body of the `for dep in deps.iter()` loop
(src/utils/from_toml.rs, lines 76-115): build the `DepInfo` for one
dependency.  A string value sets `ver_req`; a table value clears `dump`
when any key is outside `{version, git, registry}`, then applies
`version`, `git` and `registry` in that order (each failing with a
`ParseError` when present but not a string, `registry` overwriting
`git`); any other value kind fails `as_table`. -/
def processDep (platform name : String) : TomlVal → Except CrateSpecError DepInfo
  | .vStr s => .ok ⟨name, s, .CratesIo, platform, true⟩
  | .vOther => .error (.ParseError "依赖配置格式错误")
  | .vTable m =>
    let dump := decide (∀ kv ∈ m, kv.1 = "version" ∨ kv.1 = "git" ∨ kv.1 = "registry")
    match alLookup "version" m with
    | some (.vTable _) => .error (.ParseError "'version' 字段格式错误")
    | some .vOther => .error (.ParseError "'version' 字段格式错误")
    | some (.vStr sv) =>
      (match alLookup "git" m with
      | some (.vTable _) => .error (.ParseError "'git' 字段格式错误")
      | some .vOther => .error (.ParseError "'git' 字段格式错误")
      | some (.vStr sg) =>
        (match alLookup "registry" m with
        | some (.vTable _) => .error (.ParseError "'registry' 字段格式错误")
        | some .vOther => .error (.ParseError "'registry' 字段格式错误")
        | some (.vStr sr) => .ok ⟨name, sv, .Registry sr, platform, dump⟩
        | none => .ok ⟨name, sv, .Git sg, platform, dump⟩)
      | none =>
        (match alLookup "registry" m with
        | some (.vTable _) => .error (.ParseError "'registry' 字段格式错误")
        | some .vOther => .error (.ParseError "'registry' 字段格式错误")
        | some (.vStr sr) => .ok ⟨name, sv, .Registry sr, platform, dump⟩
        | none => .ok ⟨name, sv, .CratesIo, platform, dump⟩))
    | none =>
      (match alLookup "git" m with
      | some (.vTable _) => .error (.ParseError "'git' 字段格式错误")
      | some .vOther => .error (.ParseError "'git' 字段格式错误")
      | some (.vStr sg) =>
        (match alLookup "registry" m with
        | some (.vTable _) => .error (.ParseError "'registry' 字段格式错误")
        | some .vOther => .error (.ParseError "'registry' 字段格式错误")
        | some (.vStr sr) => .ok ⟨name, "default", .Registry sr, platform, dump⟩
        | none => .ok ⟨name, "default", .Git sg, platform, dump⟩)
      | none =>
        (match alLookup "registry" m with
        | some (.vTable _) => .error (.ParseError "'registry' 字段格式错误")
        | some .vOther => .error (.ParseError "'registry' 字段格式错误")
        | some (.vStr sr) => .ok ⟨name, "default", .Registry sr, platform, dump⟩
        | none => .ok ⟨name, "default", .CratesIo, platform, dump⟩))

/-- `CrateToml::write_dep_info_to_package_context`: fold the dependency
table, appending dumpable entries to the context's `dep_infos`
(`PackageContext::add_dep_info` stores them with `dump = true`) and
collecting the names of non-dumpable entries into the excluded list. -/
def write_dep_info_to_package_context (dep_infos : List DepInfo) (platform : String) :
    List (String × TomlVal) → Except CrateSpecError (List DepInfo × List String)
  | [] => .ok (dep_infos, [])
  | (name, val) :: deps =>
    match processDep platform name val with
    | .error e => .error e
    | .ok dep_info =>
      if dep_info.dump then
        write_dep_info_to_package_context
          (dep_infos ++ [{ dep_info with dump := true }]) platform deps
      else
        match write_dep_info_to_package_context dep_infos platform deps with
        | .error e => .error e
        | .ok (ctx, excluded) => .ok (ctx, name :: excluded)

/-- Whether an optional TOML value is absent or a string; the
well-formedness the claim presupposes for the three recognised keys. -/
def strOrAbsent : Option TomlVal → Bool
  | none => true
  | some (.vStr _) => true
  | some _ => false

/-- Well-formedness of one manifest dependency value: a version string, or
a table whose `version`/`git`/`registry` values, when present, are
strings. -/
def TomlDepWF : TomlVal → Prop
  | .vStr _ => True
  | .vOther => False
  | .vTable m =>
    strOrAbsent (alLookup "version" m) = true ∧
    strOrAbsent (alLookup "git" m) = true ∧
    strOrAbsent (alLookup "registry" m) = true

/-- The record the claim predicts for one dependency (`none` when the
dependency is excluded): a string value is a crates-io dependency with
that version requirement; a table with only allowed keys yields the
version (default `"default"`), a `registry` key maps to
`SrcType::Registry`, otherwise a `git` key to `SrcType::Git`, and
otherwise `SrcType::CratesIo`; a table with any other key is excluded. -/
def expectedDep (platform name : String) : TomlVal → Option DepInfo
  | .vStr s => some ⟨name, s, .CratesIo, platform, true⟩
  | .vOther => none
  | .vTable m =>
    if ∀ kv ∈ m, kv.1 = "version" ∨ kv.1 = "git" ∨ kv.1 = "registry" then
      some ⟨name,
        (match alLookup "version" m with
         | some (.vStr s) => s
         | _ => "default"),
        (match alLookup "registry" m with
         | some (.vStr s) => .Registry s
         | _ =>
            match alLookup "git" m with
            | some (.vStr s) => .Git s
            | _ => .CratesIo),
        platform, true⟩
    else none

theorem zeroRangeAux_length (lo hi : Nat) :
    ∀ (start : Nat) (l : List Nat), (zeroRangeAux lo hi start l).length = l.length := by
  intro start l
  induction l generalizing start with
  | nil => rfl
  | cons b rest ih => simp [zeroRangeAux, ih]

theorem zeroRangeAux_getElem? (lo hi : Nat) :
    ∀ (start : Nat) (l : List Nat) (i : Nat), i < l.length →
      (zeroRangeAux lo hi start l)[i]? =
        if lo ≤ start + i ∧ start + i < hi then some 0 else l[i]? := by
  intro start l
  induction l generalizing start with
  | nil => intro i hi'; simp at hi'
  | cons b rest ih =>
    intro i hi'
    cases i with
    | zero =>
      simp only [zeroRangeAux, List.getElem?_cons_zero, Nat.add_zero]
      split <;> simp
    | succ j =>
      have hj : j < rest.length := by simpa using Nat.lt_of_succ_lt_succ hi'
      have := ih (start + 1) j hj
      simp only [zeroRangeAux, List.getElem?_cons_succ]
      rw [this]
      have harith : start + 1 + j = start + (j + 1) := by omega
      rw [harith]

/-- C1: for every crate package and encoded byte image (so the truncation
bound lies within the image), the canonical buffer produced by
`binary_before_sig` is the image truncated to
`ds_offset + datasection_size_without_sig()` bytes, in which exactly the
bytes at positions `[si_offset + none_sig_size(), si_offset + si_size)` are
zero and every other byte of the truncated prefix equals the original image
byte. -/
theorem c1_binary_before_sig_shape
    (ds_offset dsw si_offset nss si_size : Nat) (bin : List Nat)
    (hlen : ds_offset + dsw ≤ bin.length) :
    (binary_before_sig ds_offset dsw si_offset nss si_size bin).length = ds_offset + dsw ∧
    ∀ i, i < ds_offset + dsw →
      (binary_before_sig ds_offset dsw si_offset nss si_size bin)[i]? =
        if si_offset + nss ≤ i ∧ i < si_offset + si_size then some 0 else bin[i]? := by
  unfold binary_before_sig
  constructor
  · rw [zeroRangeAux_length]
    simp [List.length_take]
    omega
  · intro i hi
    have htake : i < (bin.take (ds_offset + dsw)).length := by
      simp [List.length_take]
      omega
    rw [zeroRangeAux_getElem? _ _ 0 _ i htake]
    simp only [Nat.zero_add]
    rw [List.getElem?_take]
    simp [hi]

theorem c1_binary_before_sig_shape_witness :
    (binary_before_sig 4 4 2 1 3 [1, 2, 3, 4, 5, 6, 7, 8, 9]).length = 4 + 4 ∧
    ∀ i, i < 4 + 4 →
      (binary_before_sig 4 4 2 1 3 [1, 2, 3, 4, 5, 6, 7, 8, 9])[i]? =
        if 2 + 1 ≤ i ∧ i < 2 + 3 then some 0 else [1, 2, 3, 4, 5, 6, 7, 8, 9][i]? :=
  c1_binary_before_sig_shape 4 4 2 1 3 [1, 2, 3, 4, 5, 6, 7, 8, 9] (by decide)

/-- C7 (counterexample): at discriminant 5 the decoder fails with a
`ParseError`, not with the `DecodeError` the claim states. -/
theorem c7_counterexample_parse_error_not_decode :
    SrcTypePath.from_u8_with_path 5 "" = .error (.ParseError "无效的依赖源类型: 5") ∧
    CrateSpecError.isDecodeError (.ParseError "无效的依赖源类型: 5") = false :=
  ⟨rfl, rfl⟩

/-- C7 (amended): for every byte value `v` not in `0..=4`,
`from_u8_with_path v path` fails with a `ParseError` (unknown srctype
discriminant); for every `v` in `0..=4` and every path string it succeeds
with the variant whose discriminant is `v`, so decoding is a left inverse
of `as_u8` (with the source path stored for the variant). -/
theorem c7_from_u8_with_path_inverse (v : Nat) (path : String) :
    (5 ≤ v → SrcTypePath.from_u8_with_path v path =
        .error (.ParseError ("无效的依赖源类型: " ++ toString v))) ∧
    (v < 5 → ∃ s : SrcTypePath,
        SrcTypePath.from_u8_with_path v path = .ok s ∧ s.as_u8 = v) ∧
    (∀ s : SrcTypePath, SrcTypePath.from_u8_with_path s.as_u8 s.src_path = .ok s) := by
  refine ⟨?_, ?_, ?_⟩
  · intro h
    match v, h with
    | n + 5, _ => rfl
  · intro h
    interval_cases v
    · exact ⟨.CratesIo, rfl, rfl⟩
    · exact ⟨.Git path, rfl, rfl⟩
    · exact ⟨.Url path, rfl, rfl⟩
    · exact ⟨.Registry path, rfl, rfl⟩
    · exact ⟨.P2p path, rfl, rfl⟩
  · intro s
    cases s <;> rfl

theorem c7_from_u8_with_path_inverse_witness :
    SrcTypePath.from_u8_with_path 7 "x" =
        .error (.ParseError ("无效的依赖源类型: " ++ toString 7)) ∧
    ∃ s : SrcTypePath, SrcTypePath.from_u8_with_path 2 "u" = .ok s ∧ s.as_u8 = 2 :=
  ⟨(c7_from_u8_with_path_inverse 7 "x").1 (by decide),
   (c7_from_u8_with_path_inverse 2 "u").2.1 (by decide)⟩

theorem alLookup_alInsert_self {K V : Type} [DecidableEq K] (k : K) (v : V)
    (l : List (K × V)) : alLookup k (alInsert k v l) = some v := by
  induction l with
  | nil => simp [alInsert, alLookup]
  | cons p rest ih =>
    obtain ⟨k', v'⟩ := p
    by_cases h : k = k'
    · subst h; simp [alInsert, alLookup]
    · simp [alInsert, alLookup, h, ih]

theorem alLookup_alInsert_ne {K V : Type} [DecidableEq K] {k k' : K} (v : V)
    (l : List (K × V)) (h : k ≠ k') : alLookup k (alInsert k' v l) = alLookup k l := by
  induction l with
  | nil => simp [alInsert, alLookup, h]
  | cons p rest ih =>
    obtain ⟨k'', v''⟩ := p
    by_cases h2 : k' = k''
    · subst h2; simp [alInsert, alLookup, h]
    · simp only [alInsert, if_neg h2, alLookup]
      by_cases h3 : k = k''
      · simp [h3]
      · simp [h3, ih]

theorem tableInv_new : TableInv StringTable.new := by
  constructor
  · intro s o h
    simp only [StringTable.new, StringTable.insert_str, alLookup, alInsert] at h ⊢
    by_cases hs : s = ([] : List Nat)
    · subst hs; simp [alLookup] at h ⊢; omega
    · simp [alLookup, hs] at h
  · intro s o h
    simp only [StringTable.new, StringTable.insert_str, alLookup, alInsert] at h ⊢
    by_cases hs : s = ([] : List Nat)
    · subst hs
      simp [alLookup] at h
      simp only [STRING_LENGTH_PREFIX_BYTES]
      omega
    · simp [alLookup, hs] at h

theorem tableInv_insert_str (t : StringTable) (st : List Nat) (hinv : TableInv t) :
    TableInv (t.insert_str st).1 := by
  obtain ⟨h1, h2⟩ := hinv
  unfold StringTable.insert_str
  cases hl : alLookup st t.str2off with
  | some off => exact ⟨h1, h2⟩
  | none =>
    constructor
    · intro s o h
      by_cases hs : s = st
      · subst hs
        rw [alLookup_alInsert_self] at h
        injection h with h
        subst h
        exact alLookup_alInsert_self _ _ _
      · rw [alLookup_alInsert_ne _ _ hs] at h
        have hlt := h2 s o h
        have ho : o ≠ t.total_bytes := by omega
        rw [alLookup_alInsert_ne _ _ ho]
        exact h1 s o h
    · intro s o h
      by_cases hs : s = st
      · subst hs
        rw [alLookup_alInsert_self] at h
        injection h with h
        subst h
        simp [STRING_LENGTH_PREFIX_BYTES]
        omega
      · rw [alLookup_alInsert_ne _ _ hs] at h
        have := h2 s o h
        simp only []
        omega

theorem tableInv_insertAll (ss : List (List Nat)) :
    ∀ t, TableInv t → TableInv (insertAll t ss) := by
  induction ss with
  | nil => intro t h; exact h
  | cons s rest ih => intro t h; exact ih _ (tableInv_insert_str t s h)

/-- C5: inserting a string twice returns the offset of the first insertion;
a freshly constructed table already contains the empty string at offset 0
(so inserting the empty string returns 0); and after any insertion history
starting from `new`, looking up the offset returned by `insert_str s`
yields `s` back. -/
theorem c5_string_table_dedup :
    (∀ (t : StringTable) (s : List Nat),
        ((t.insert_str s).1.insert_str s).2 = (t.insert_str s).2) ∧
    (StringTable.new.insert_str []).2 = 0 ∧
    (∀ (ss : List (List Nat)) (s : List Nat),
        ((insertAll StringTable.new ss).insert_str s).1.str_by_off
            ((insertAll StringTable.new ss).insert_str s).2 = .ok s) := by
  refine ⟨?_, rfl, ?_⟩
  · intro t s
    unfold StringTable.insert_str
    cases hl : alLookup s t.str2off with
    | some off => simp [hl]
    | none => simp [hl, alLookup_alInsert_self]
  · intro ss s
    obtain ⟨h1, _⟩ := tableInv_insertAll ss StringTable.new tableInv_new
    unfold StringTable.insert_str StringTable.str_by_off
    cases hl : alLookup s (insertAll StringTable.new ss).str2off with
    | some off => simp [hl, h1 s off hl]
    | none => simp [hl, alLookup_alInsert_self]

theorem alignedInv_new : AlignedInv StringTable.new := by
  constructor
  · decide
  · intro s o h
    simp only [StringTable.new, StringTable.insert_str, alLookup, alInsert] at h
    by_cases hs : s = ([] : List Nat)
    · subst hs
      simp [alLookup] at h
      omega
    · simp [alLookup, hs] at h

theorem alignedInv_insert_str (t : StringTable) (st : List Nat) (h : AlignedInv t)
    (hlen : st.length % 4 = 0) : AlignedInv (t.insert_str st).1 := by
  obtain ⟨h1, h2⟩ := h
  unfold StringTable.insert_str
  cases hl : alLookup st t.str2off with
  | some off => exact ⟨h1, h2⟩
  | none =>
    constructor
    · simp only [STRING_LENGTH_PREFIX_BYTES]
      omega
    · intro s o hlk
      by_cases hs : s = st
      · subst hs
        rw [alLookup_alInsert_self] at hlk
        injection hlk with hlk
        omega
      · rw [alLookup_alInsert_ne _ _ hs] at hlk
        exact h2 s o hlk

theorem insert_str_offset_aligned (t : StringTable) (s : List Nat) (h : AlignedInv t) :
    (t.insert_str s).2 % 4 = 0 := by
  obtain ⟨h1, h2⟩ := h
  unfold StringTable.insert_str
  cases hl : alLookup s t.str2off with
  | some off => simpa using h2 s off hl
  | none => simpa using h1

theorem alignedInv_insertAll (ss : List (List Nat)) :
    ∀ t, AlignedInv t → (∀ x ∈ ss, x.length % 4 = 0) → AlignedInv (insertAll t ss) := by
  induction ss with
  | nil => intro t h _; exact h
  | cons s rest ih =>
    intro t h hall
    exact ih _ (alignedInv_insert_str t s h (hall s (by simp)))
      (fun x hx => hall x (by simp [hx]))

/-- C8 (counterexample): inserting the one-byte string `"a"` and then the
two-byte string `"bb"` into a fresh table returns offset 9 for the second
insertion, which is not 4-byte aligned — the table never pads entries. -/
theorem c8_counterexample_unaligned_offset :
    ((StringTable.new.insert_str [97]).1.insert_str [98, 98]).2 = 9 ∧ ¬ 9 % 4 = 0 := by
  exact ⟨rfl, by decide⟩

/-- C8 (amended): every offset returned by `insert_str`, after any sequence
of insertions, is the byte position of the entry from the start of the
table; it is 4-byte aligned provided every previously inserted string's
byte length is a multiple of 4 (the entries are written back to back with
their 4-byte length prefixes and no padding). -/
theorem c8_insert_offset_aligned (ss : List (List Nat)) (s : List Nat)
    (h : ∀ x ∈ ss, x.length % 4 = 0) :
    ((insertAll StringTable.new ss).insert_str s).2 % 4 = 0 :=
  insert_str_offset_aligned _ s (alignedInv_insertAll ss StringTable.new alignedInv_new h)

theorem c8_insert_offset_aligned_witness :
    ((insertAll StringTable.new [[97, 98, 99, 100]]).insert_str [107]).2 % 4 = 0 :=
  c8_insert_offset_aligned [[97, 98, 99, 100]] [107] (by decide)

theorem emitEntries_append (a b : List (Nat × List Nat)) :
    emitEntries (a ++ b) = emitEntries a ++ emitEntries b := by
  induction a with
  | nil => rfl
  | cons p rest ih =>
    obtain ⟨o, st⟩ := p
    simp [emitEntries, ih]

theorem insertSorted_of_le (x : Nat) (l : List Nat) (h : ∀ y ∈ l, x ≤ y) :
    insertSorted x l = x :: l := by
  cases l with
  | nil => rfl
  | cons y ys => simp [insertSorted, h y (by simp)]

theorem sortNat_of_sorted (l : List Nat) (h : List.Pairwise (· ≤ ·) l) :
    sortNat l = l := by
  induction l with
  | nil => rfl
  | cons x xs ih =>
    rw [List.pairwise_cons] at h
    have hstep : sortNat (x :: xs) = insertSorted x (sortNat xs) := rfl
    rw [hstep, ih h.2, insertSorted_of_le x xs h.1]

theorem alLookup_of_pairwise (al : List (Nat × List Nat))
    (h : List.Pairwise (· < ·) (al.map Prod.fst)) :
    ∀ p ∈ al, alLookup p.1 al = some p.2 := by
  induction al with
  | nil => intro p hp; simp at hp
  | cons q rest ih =>
    obtain ⟨k, v⟩ := q
    rw [List.map_cons, List.pairwise_cons] at h
    intro p hp
    rcases List.mem_cons.mp hp with h1 | h1
    · subst h1; simp [alLookup]
    · have hk : k < p.1 := h.1 p.1 (List.mem_map_of_mem Prod.fst h1)
      have hne : p.1 ≠ k := by omega
      simp only [alLookup, if_neg hne]
      exact ih h.2 p h1

theorem toBytes_foldl (m : List (Nat × List Nat)) (al : List (Nat × List Nat)) :
    ∀ (acc : List Nat),
      (∀ p ∈ al, alLookup p.1 m = some p.2) →
      (al.map Prod.fst).foldl
        (fun bytes off =>
          match alLookup off m with
          | some st => bytes ++ le32 st.length ++ st
          | none => bytes) acc
      = acc ++ emitEntries al := by
  induction al with
  | nil => intro acc _; simp [emitEntries]
  | cons p rest ih =>
    obtain ⟨o, st⟩ := p
    intro acc hall
    have h1 : alLookup o m = some st := hall (o, st) (by simp)
    simp only [List.map_cons, List.foldl_cons, h1]
    rw [ih _ (fun p hp => hall p (by simp [hp]))]
    simp [emitEntries]

theorem to_bytes_eq_emit (t : StringTable)
    (h : List.Pairwise (· < ·) (t.off2str.map Prod.fst)) :
    t.to_bytes = emitEntries t.off2str := by
  unfold StringTable.to_bytes
  have hsort : sortNat (t.off2str.map Prod.fst) = t.off2str.map Prod.fst :=
    sortNat_of_sorted _ (h.imp (fun hab => Nat.le_of_lt hab))
  rw [hsort]
  simpa using toBytes_foldl t.off2str t.off2str [] (alLookup_of_pairwise t.off2str h)

theorem alInsert_append_of_lt (i : Nat) (v : List Nat) (al : List (Nat × List Nat))
    (h : ∀ k ∈ al.map Prod.fst, k < i) :
    alInsert i v al = al ++ [(i, v)] := by
  induction al with
  | nil => rfl
  | cons p rest ih =>
    obtain ⟨k, w⟩ := p
    have hk : k < i := h k (by simp)
    have hne : i ≠ k := by omega
    simp only [alInsert, if_neg hne, List.cons_append, List.cons.injEq, true_and]
    exact ih (fun k' hk' => h k' (by simp [hk']))

theorem le32_fromLe32 (a b c d : Nat) (ha : a < 256) (hb : b < 256) (hc : c < 256)
    (hd : d < 256) : le32 (fromLe32 [a, b, c, d]) = [a, b, c, d] := by
  simp only [le32, fromLe32, List.cons.injEq, and_true]
  refine ⟨?_, ?_, ?_, ?_⟩ <;> omega

theorem list_length_four {α : Type} (l : List α) (h : l.length = 4) :
    ∃ a b c d, l = [a, b, c, d] := by
  cases l with
  | nil => simp at h
  | cons a l1 =>
    cases l1 with
    | nil => simp at h
    | cons b l2 =>
      cases l2 with
      | nil => simp at h
      | cons c l3 =>
        cases l3 with
        | nil => simp at h
        | cons d l4 =>
          cases l4 with
          | nil => exact ⟨a, b, c, d, rfl⟩
          | cons e l5 => simp at h

theorem take_step (bytes : List Nat) (hb : ∀ x ∈ bytes, x < 256) (i : Nat)
    (h4 : i + 4 ≤ bytes.length)
    (hov : i + 4 + fromLe32 ((bytes.drop i).take 4) ≤ bytes.length) :
    bytes.take (i + 4 + fromLe32 ((bytes.drop i).take 4)) =
      bytes.take i ++
        le32 ((bytes.drop (i + 4)).take (fromLe32 ((bytes.drop i).take 4))).length ++
        (bytes.drop (i + 4)).take (fromLe32 ((bytes.drop i).take 4)) := by
  have hlen4 : ((bytes.drop i).take 4).length = 4 := by
    simp [List.length_take, List.length_drop]
    omega
  obtain ⟨a, b, c, d, habcd⟩ := list_length_four _ hlen4
  have hmem : ∀ x ∈ (bytes.drop i).take 4, x < 256 := fun x hx =>
    hb x (List.mem_of_mem_drop (List.mem_of_mem_take hx))
  rw [habcd] at hmem
  have hle32 : le32 (fromLe32 ((bytes.drop i).take 4)) = (bytes.drop i).take 4 := by
    rw [habcd]
    exact le32_fromLe32 a b c d (hmem a (by simp)) (hmem b (by simp)) (hmem c (by simp))
      (hmem d (by simp))
  have hstlen : ((bytes.drop (i + 4)).take (fromLe32 ((bytes.drop i).take 4))).length =
      fromLe32 ((bytes.drop i).take 4) := by
    simp [List.length_take, List.length_drop]
    omega
  rw [hstlen]
  have h1 : bytes.take (i + 4 + fromLe32 ((bytes.drop i).take 4)) =
      bytes.take (i + 4) ++ (bytes.drop (i + 4)).take (fromLe32 ((bytes.drop i).take 4)) :=
    List.take_add bytes (i + 4) _
  have h2 : bytes.take (i + 4) = bytes.take i ++ (bytes.drop i).take 4 :=
    List.take_add bytes i 4
  rw [h1, h2, hle32]

theorem readInv_exit (bytes : List Nat) (hne : bytes ≠ []) (i : Nat) (t : StringTable)
    (hge : ¬ i < bytes.length) (hle : i ≤ bytes.length) (hinv : ReadInv bytes i t) :
    List.Pairwise (· < ·) (t.off2str.map Prod.fst) ∧ emitEntries t.off2str = bytes := by
  have hi : i = bytes.length := by omega
  rcases hinv with ⟨hp, _, hemit⟩ | ⟨hi0, _⟩
  · refine ⟨hp, ?_⟩
    rw [hi] at hemit
    simpa using hemit
  · exfalso
    apply hne
    have hlen0 : bytes.length = 0 := by omega
    exact List.length_eq_zero.mp hlen0

theorem readBytesGo_ok_emit (bytes : List Nat) (hb : ∀ x ∈ bytes, x < 256)
    (hne : bytes ≠ []) :
    ∀ (n i : Nat) (t t' : StringTable), bytes.length - i ≤ n → i ≤ bytes.length →
      ReadInv bytes i t →
      readBytesGo bytes i t = .ok t' →
      List.Pairwise (· < ·) (t'.off2str.map Prod.fst) ∧ emitEntries t'.off2str = bytes := by
  intro n
  induction n with
  | zero =>
    intro i t t' hn hi hinv hok
    have hge : ¬ i < bytes.length := by omega
    rw [readBytesGo, dif_neg hge] at hok
    injection hok with hok
    subst hok
    exact readInv_exit bytes hne i t hge hi hinv
  | succ n ih =>
    intro i t t' hn hi hinv hok
    by_cases hlt : i < bytes.length
    · rw [readBytesGo, dif_pos hlt] at hok
      simp only [STRING_LENGTH_PREFIX_BYTES] at hok
      split at hok
      · exact absurd hok (by simp)
      · split at hok
        · exact absurd hok (by simp)
        · split at hok
          · rename_i h4 hov hutf
            apply ih (i + 4 + fromLe32 ((bytes.drop i).take 4)) _ t' (by omega) (by omega)
              _ hok
            left
            rcases hinv with ⟨hp, hbound, hemit⟩ | ⟨hi0, hoff⟩
            · have hins : alInsert i ((bytes.drop (i + 4)).take (fromLe32 ((bytes.drop i).take 4)))
                  t.off2str = t.off2str ++
                  [(i, (bytes.drop (i + 4)).take (fromLe32 ((bytes.drop i).take 4)))] :=
                alInsert_append_of_lt i _ t.off2str hbound
              refine ⟨?_, ?_, ?_⟩
              · simp only [hins, List.map_append, List.map_cons, List.map_nil]
                rw [List.pairwise_append]
                refine ⟨hp, by simp, ?_⟩
                intro a ha b hbmem
                simp at hbmem
                subst hbmem
                exact hbound a ha
              · simp only [hins, List.map_append, List.map_cons, List.map_nil]
                intro k hk
                rcases List.mem_append.mp hk with hk | hk
                · have := hbound k hk; omega
                · simp at hk; omega
              · simp only [hins, emitEntries_append, hemit, emitEntries]
                rw [take_step bytes hb i (by omega) (by omega)]
                simp [List.append_assoc]
            · subst hi0
              simp only [List.drop_zero, Nat.zero_add] at h4 hov ⊢
              simp only [hoff]
              have hins0 : alInsert 0 ((bytes.drop 4).take (fromLe32 (bytes.take 4)))
                  [(0, ([] : List Nat))] =
                  [(0, (bytes.drop 4).take (fromLe32 (bytes.take 4)))] := by
                simp [alInsert]
              have hts := take_step bytes hb 0 (by omega)
                (by simp only [List.drop_zero]; omega)
              simp only [List.drop_zero, Nat.zero_add, List.take_zero,
                List.nil_append] at hts
              refine ⟨?_, ?_, ?_⟩
              · simp [hins0]
              · simp only [hins0, List.map_cons, List.map_nil]
                intro k hk
                simp at hk
                omega
              · simp only [hins0, emitEntries, List.append_nil]
                rw [hts]
          · exact absurd hok (by simp)
    · rw [readBytesGo, dif_neg hlt] at hok
      injection hok with hok
      subst hok
      exact readInv_exit bytes hne i t hlt hi hinv

theorem readBytesGo_error_decode (bytes : List Nat) :
    ∀ (n i : Nat) (t : StringTable) (e : CrateSpecError), bytes.length - i ≤ n →
      readBytesGo bytes i t = .error e → e.isDecodeError = true := by
  intro n
  induction n with
  | zero =>
    intro i t e hn herr
    by_cases hlt : i < bytes.length
    · omega
    · rw [readBytesGo, dif_neg hlt] at herr
      exact absurd herr (by simp)
  | succ n ih =>
    intro i t e hn herr
    by_cases hlt : i < bytes.length
    · rw [readBytesGo, dif_pos hlt] at herr
      simp only [STRING_LENGTH_PREFIX_BYTES] at herr
      split at herr
      · injection herr with h; subst h; rfl
      · split at herr
        · injection herr with h; subst h; rfl
        · split at herr
          · exact ih (i + 4 + fromLe32 ((bytes.drop i).take 4)) _ e (by omega) herr
          · injection herr with h; subst h; rfl
    · rw [readBytesGo, dif_neg hlt] at herr
      exact absurd herr (by simp)

/-- C10: for every non-empty byte region `b` that `read_bytes` parses
without error on a freshly constructed string table, a subsequent
`to_bytes()` returns exactly `b`; and every failure of `read_bytes`
(overrunning length prefix, overrunning string body, invalid UTF-8) is a
`DecodeError`. -/
theorem c10_read_bytes_round_trip (b : List Nat) (hb : ∀ x ∈ b, x < 256)
    (hne : b ≠ []) :
    (∀ t', StringTable.new.read_bytes b = .ok t' → t'.to_bytes = b) ∧
    (∀ e, StringTable.new.read_bytes b = .error e → e.isDecodeError = true) := by
  constructor
  · intro t' hok
    rw [StringTable.read_bytes] at hok
    have hres := readBytesGo_ok_emit b hb hne b.length 0 StringTable.new t'
      (by omega) (by omega) (Or.inr ⟨rfl, rfl⟩) hok
    exact (to_bytes_eq_emit t' hres.1).trans hres.2
  · intro e herr
    rw [StringTable.read_bytes] at herr
    exact readBytesGo_error_decode b b.length 0 StringTable.new e (by omega) herr

theorem c10_read_bytes_round_trip_witness :
    (∀ t', StringTable.new.read_bytes [0, 0, 0, 0] = .ok t' →
        t'.to_bytes = [0, 0, 0, 0]) ∧
    (∀ e, StringTable.new.read_bytes [0, 0, 0, 0] = .error e →
        e.isDecodeError = true) :=
  c10_read_bytes_round_trip [0, 0, 0, 0] (by decide) (by decide)

theorem signDigestGo_prefix_success (outcomes : Nat → HttpOutcome SignDigestResponse)
    (rt : Nat) (url : String) (k : Nat) (resp : SignDigestResponse)
    (hk : k ≤ rt) (hsucc : outcomes k = .httpOk (.ok resp)) :
    ∀ (n a calls sleeps : Nat) (le : Option String), k - a = n → a ≤ k →
      (∀ i, a ≤ i → i < k → ∃ m, outcomes i = .transport true m) →
      signDigestGo outcomes rt url a (rt + 1 - a) calls sleeps le =
        ⟨.ok (resp.signature, resp.cert), calls + (k - a) + 1, sleeps + (k - a)⟩ := by
  intro n
  induction n with
  | zero =>
    intro a calls sleeps le hn ha _
    have hak : a = k := by omega
    subst hak
    have hfuel : rt + 1 - a = (rt - a) + 1 := by omega
    rw [hfuel]
    simp [signDigestGo, hsucc, Nat.sub_self]
  | succ n ih =>
    intro a calls sleeps le hn ha hfail
    have halt : a < k := by omega
    obtain ⟨m, hm⟩ := hfail a (le_refl a) halt
    have hfuel : rt + 1 - a = (rt - a) + 1 := by omega
    rw [hfuel]
    simp only [signDigestGo, hm]
    rw [if_pos ⟨trivial, by omega⟩]
    have hfuel2 : rt - a = rt + 1 - (a + 1) := by omega
    rw [hfuel2]
    rw [ih (a + 1) (calls + 1) (sleeps + 1) _ (by omega) (by omega)
      (fun i hi1 hi2 => hfail i (by omega) hi2)]
    simp only [PkiCallTrace.mk.injEq, true_and]
    omega

theorem signDigestGo_prefix_httpErr (outcomes : Nat → HttpOutcome SignDigestResponse)
    (rt : Nat) (url : String) (k : Nat) (status errText : String)
    (hk : k ≤ rt) (hresp : outcomes k = .httpErr status errText) :
    ∀ (n a calls sleeps : Nat) (le : Option String), k - a = n → a ≤ k →
      (∀ i, a ≤ i → i < k → ∃ m, outcomes i = .transport true m) →
      signDigestGo outcomes rt url a (rt + 1 - a) calls sleeps le =
        ⟨.error ("PKI 平台返回错误 (HTTP " ++ status ++ "): " ++ errText),
          calls + (k - a) + 1, sleeps + (k - a)⟩ := by
  intro n
  induction n with
  | zero =>
    intro a calls sleeps le hn ha _
    have hak : a = k := by omega
    subst hak
    have hfuel : rt + 1 - a = (rt - a) + 1 := by omega
    rw [hfuel]
    simp [signDigestGo, hresp, Nat.sub_self]
  | succ n ih =>
    intro a calls sleeps le hn ha hfail
    have halt : a < k := by omega
    obtain ⟨m, hm⟩ := hfail a (le_refl a) halt
    have hfuel : rt + 1 - a = (rt - a) + 1 := by omega
    rw [hfuel]
    simp only [signDigestGo, hm]
    rw [if_pos ⟨trivial, by omega⟩]
    have hfuel2 : rt - a = rt + 1 - (a + 1) := by omega
    rw [hfuel2]
    rw [ih (a + 1) (calls + 1) (sleeps + 1) _ (by omega) (by omega)
      (fun i hi1 hi2 => hfail i (by omega) hi2)]
    simp only [PkiCallTrace.mk.injEq, true_and]
    omega

theorem signDigestGo_exhaust_transport (outcomes : Nat → HttpOutcome SignDigestResponse)
    (rt : Nat) (url : String) (R : Nat) (hR : rt < R)
    (hfail : ∀ i, i < R → ∃ m, outcomes i = .transport true m) :
    ∀ (n a calls sleeps : Nat) (le : Option String), rt - a = n → a ≤ rt →
      ∃ emsg, signDigestGo outcomes rt url a (rt + 1 - a) calls sleeps le =
        ⟨.error ("网络请求失败: " ++ emsg ++ " (URL: " ++ url ++ ")"),
          calls + (rt - a) + 1, sleeps + (rt - a)⟩ := by
  intro n
  induction n with
  | zero =>
    intro a calls sleeps le hn ha
    have hak : a = rt := by omega
    have hfuel : rt + 1 - a = (rt - a) + 1 := by omega
    rw [hfuel]
    obtain ⟨m, hm⟩ := hfail a (by omega)
    refine ⟨m, ?_⟩
    simp only [signDigestGo, hm]
    rw [if_neg (by simp only [true_and]; omega)]
    simp only [PkiCallTrace.mk.injEq, true_and]
    omega
  | succ n ih =>
    intro a calls sleeps le hn ha
    have halt : a < rt := by omega
    obtain ⟨m, hm⟩ := hfail a (by omega)
    have hfuel : rt + 1 - a = (rt - a) + 1 := by omega
    rw [hfuel]
    simp only [signDigestGo, hm]
    rw [if_pos ⟨trivial, halt⟩]
    have hfuel2 : rt - a = rt + 1 - (a + 1) := by omega
    rw [hfuel2]
    obtain ⟨emsg, hgo⟩ := ih (a + 1) (calls + 1) (sleeps + 1)
      (some ("网络连接失败: " ++ m ++ " (URL: " ++ url ++ ")")) (by omega) (by omega)
    refine ⟨emsg, ?_⟩
    rw [hgo]
    simp only [PkiCallTrace.mk.injEq, true_and]
    omega

/-- C4: when the endpoint produces transport-level failures on the first
`R` attempts and then a parsed success response, `sign_digest` succeeds if
and only if `R ≤ retry_times`, having made `R + 1` HTTP attempts with a
fixed-delay sleep before each retry; and when an HTTP response (any
status, here non-2xx) arrives after `k ≤ retry_times` transport failures,
the call returns that error immediately with no further attempt. -/
theorem c4_sign_digest_retry (retry_times : Nat) (url : String) :
    (∀ (outcomes : Nat → HttpOutcome SignDigestResponse) (R : Nat)
        (resp : SignDigestResponse),
      (∀ i, i < R → ∃ m, outcomes i = .transport true m) →
      outcomes R = .httpOk (.ok resp) →
      ((sign_digest outcomes retry_times url).result =
          .ok (resp.signature, resp.cert) ↔ R ≤ retry_times) ∧
      (R ≤ retry_times →
        (sign_digest outcomes retry_times url).calls = R + 1 ∧
        (sign_digest outcomes retry_times url).sleeps = R)) ∧
    (∀ (outcomes : Nat → HttpOutcome SignDigestResponse) (k : Nat)
        (status errText : String),
      (∀ i, i < k → ∃ m, outcomes i = .transport true m) →
      k ≤ retry_times →
      outcomes k = .httpErr status errText →
      (sign_digest outcomes retry_times url).result =
        .error ("PKI 平台返回错误 (HTTP " ++ status ++ "): " ++ errText) ∧
      (sign_digest outcomes retry_times url).calls = k + 1) := by
  constructor
  · intro outcomes R resp hfail hsucc
    constructor
    · constructor
      · intro hres
        by_contra hR
        push_neg at hR
        obtain ⟨emsg, hgo⟩ := signDigestGo_exhaust_transport outcomes retry_times url R hR
          hfail retry_times 0 0 0 none (by omega) (by omega)
        rw [sign_digest] at hres
        rw [show retry_times + 1 - 0 = retry_times + 1 from rfl] at hgo
        rw [hgo] at hres
        simp at hres
      · intro hR
        have hgo := signDigestGo_prefix_success outcomes retry_times url R resp hR hsucc
          R 0 0 0 none (by omega) (by omega) (fun i _ h2 => hfail i h2)
        rw [show retry_times + 1 - 0 = retry_times + 1 from rfl] at hgo
        rw [sign_digest, hgo]
    · intro hR
      have hgo := signDigestGo_prefix_success outcomes retry_times url R resp hR hsucc
        R 0 0 0 none (by omega) (by omega) (fun i _ h2 => hfail i h2)
      rw [show retry_times + 1 - 0 = retry_times + 1 from rfl] at hgo
      rw [sign_digest, hgo]
      constructor <;> simp
  · intro outcomes k status errText hfail hk hresp
    have hgo := signDigestGo_prefix_httpErr outcomes retry_times url k status errText hk
      hresp k 0 0 0 none (by omega) (by omega) (fun i _ h2 => hfail i h2)
    rw [show retry_times + 1 - 0 = retry_times + 1 from rfl] at hgo
    rw [sign_digest, hgo]
    constructor <;> simp

theorem c4_sign_digest_retry_witness :
    ((sign_digest
        (fun i => if i = 0 then .transport true "connection refused"
          else .httpOk (.ok ⟨"deadbeef", none⟩)) 3 "http://pki").result =
      .ok ("deadbeef", none) ↔ 1 ≤ 3) ∧
    (1 ≤ 3 →
      (sign_digest
          (fun i => if i = 0 then .transport true "connection refused"
            else .httpOk (.ok ⟨"deadbeef", none⟩)) 3 "http://pki").calls = 1 + 1 ∧
      (sign_digest
          (fun i => if i = 0 then .transport true "connection refused"
            else .httpOk (.ok ⟨"deadbeef", none⟩)) 3 "http://pki").sleeps = 1) :=
  (c4_sign_digest_retry 3 "http://pki").1
    (fun i => if i = 0 then .transport true "connection refused"
      else .httpOk (.ok ⟨"deadbeef", none⟩)) 1 ⟨"deadbeef", none⟩
    (fun i hi => by
      interval_cases i
      exact ⟨"connection refused", rfl⟩)
    rfl

theorem check_one_sig_ok_iff (env : CheckSigsEnv) (root_cas : List (List Nat))
    (bin_all bin_crate : List Nat) (s : SigInfo) :
    check_one_sig env root_cas bin_all bin_crate s = .ok () ↔
      (s.typ = 0 ∧ env.decodePkcs s.bin root_cas = .ok (env.sha256 bin_all)) ∨
      (s.typ = 1 ∧ env.decodePkcs s.bin root_cas = .ok (env.sha256 bin_crate)) ∨
      (s.typ = 2 ∧ ∃ pki_verify network_sig,
          env.networkClient = some pki_verify ∧
          env.decodeNetSig s.bin = some network_sig ∧
          pki_verify network_sig.pub_key (digest_to_hex_string (env.sha256 bin_crate))
            network_sig.signature
            ⟨network_sig.algo, network_sig.kms.getD "", network_sig.flow⟩ = .ok true) := by
  unfold check_one_sig
  by_cases h01 : s.typ = 0 ∨ s.typ = 1
  · rw [if_pos h01]
    rcases h01 with h0 | h1
    · simp only [h0]
      norm_num
      cases hd : env.decodePkcs s.bin root_cas with
      | error e => simp [hd]
      | ok expect =>
        by_cases he : env.sha256 bin_all = expect
        · simp [hd, he]
        · simp [hd, he, Ne.symm he]
    · simp only [h1]
      norm_num
      cases hd : env.decodePkcs s.bin root_cas with
      | error e => simp [hd]
      | ok expect =>
        by_cases he : env.sha256 bin_crate = expect
        · simp [hd, he]
        · simp [hd, he, Ne.symm he]
  · rw [if_neg h01]
    by_cases h2 : s.typ = 2
    · rw [if_pos h2]
      cases hnc : env.networkClient with
      | none => simp [hnc, h2, h01]
      | some pki_verify =>
        cases hns : env.decodeNetSig s.bin with
        | none => simp [hnc, hns, h2, h01]
        | some network_sig =>
          cases hv : pki_verify network_sig.pub_key
              (digest_to_hex_string (env.sha256 bin_crate)) network_sig.signature
              ⟨network_sig.algo, network_sig.kms.getD "", network_sig.flow⟩ with
          | error e => simp [hnc, hns, hv, h2, h01]
          | ok b =>
            cases b with
            | true => simp [hnc, hns, hv, h2, h01]
            | false => simp [hnc, hns, hv, h2, h01]
    · rw [if_neg h2]
      have h0 : ¬ s.typ = 0 := fun h => h01 (Or.inl h)
      have h1 : ¬ s.typ = 1 := fun h => h01 (Or.inr h)
      simp [h0, h1, h2]

theorem checkSigsLoop_ok_iff (env : CheckSigsEnv) (root_cas : List (List Nat))
    (bin_all bin_crate : List Nat) (sigs : List SigInfo) :
    checkSigsLoop env root_cas bin_all bin_crate sigs = .ok () ↔
      ∀ s ∈ sigs, check_one_sig env root_cas bin_all bin_crate s = .ok () := by
  induction sigs with
  | nil => simp [checkSigsLoop]
  | cons s rest ih =>
    simp only [checkSigsLoop]
    cases hc : check_one_sig env root_cas bin_all bin_crate s with
    | ok u =>
      cases u
      simp [hc, ih, List.forall_mem_cons]
    | error e => simp [hc, List.forall_mem_cons]

/-- C2: for every decoded container (layout quantities, image and raw
crate-binary bytes) and every signature record list, `check_sigs` accepts
exactly when each record individually verifies with the digest scope of
its type: File (0) against the SHA-256 of the canonicalised
`binary_before_sig` buffer, CrateBin (1) against the SHA-256 of the raw
crate-binary bytes only, and Network (2) against the hex encoding of the
SHA-256 of the raw crate-binary bytes — the same scope as CrateBin. -/
theorem c2_check_sigs_digest_scope (env : CheckSigsEnv) (root_cas : List (List Nat))
    (ds_offset dsw si_offset nss si_size : Nat) (bin_all bin_crate : List Nat)
    (sigs : List SigInfo) :
    check_sigs env root_cas ds_offset dsw si_offset nss si_size bin_all bin_crate sigs =
        .ok () ↔
      ∀ s ∈ sigs,
        (s.typ = 0 ∧ env.decodePkcs s.bin root_cas =
            .ok (env.sha256 (binary_before_sig ds_offset dsw si_offset nss si_size bin_all))) ∨
        (s.typ = 1 ∧ env.decodePkcs s.bin root_cas = .ok (env.sha256 bin_crate)) ∨
        (s.typ = 2 ∧ ∃ pki_verify network_sig,
            env.networkClient = some pki_verify ∧
            env.decodeNetSig s.bin = some network_sig ∧
            pki_verify network_sig.pub_key (digest_to_hex_string (env.sha256 bin_crate))
              network_sig.signature
              ⟨network_sig.algo, network_sig.kms.getD "", network_sig.flow⟩ = .ok true) := by
  unfold check_sigs
  rw [checkSigsLoop_ok_iff]
  exact forall_congr' fun s => imp_congr_right fun _ =>
    check_one_sig_ok_iff env root_cas _ bin_crate s

theorem verifyDigestGo_ok_true (outcomes : Nat → HttpOutcome VerifyDigestResponse)
    (rt : Nat) (url : String) :
    ∀ (rem a calls sleeps : Nat) (le : Option String) (b : Bool),
      (verifyDigestGo outcomes rt url a rem calls sleeps le).result = .ok b → b = true := by
  intro rem
  induction rem with
  | zero =>
    intro a calls sleeps le b h
    simp [verifyDigestGo] at h
  | succ rem ih =>
    intro a calls sleeps le b h
    cases houta : outcomes a with
    | transport retryable emsg =>
      simp only [verifyDigestGo, houta] at h
      by_cases hc : (retryable = true ∧ a < rt)
      · rw [if_pos hc] at h
        exact ih _ _ _ _ b h
      · rw [if_neg hc] at h
        simp at h
    | httpErr status errText =>
      simp only [verifyDigestGo, houta] at h
      simp at h
    | httpOk parsed =>
      cases parsed with
      | error e =>
        simp only [verifyDigestGo, houta] at h
        simp at h
      | ok resp =>
        simp only [verifyDigestGo, houta] at h
        by_cases hr : resp.result = "OK"
        · rw [if_pos hr] at h
          simp at h
          exact h
        · rw [if_neg hr] at h
          simp at h

theorem verifyDigestGo_ok_true_exists (outcomes : Nat → HttpOutcome VerifyDigestResponse)
    (rt : Nat) (url : String) :
    ∀ (rem a calls sleeps : Nat) (le : Option String), a + rem = rt + 1 →
      (verifyDigestGo outcomes rt url a rem calls sleeps le).result = .ok true →
      ∃ k, a ≤ k ∧ k ≤ rt ∧ (∀ i, a ≤ i → i < k → ∃ m, outcomes i = .transport true m) ∧
        ∃ resp, outcomes k = .httpOk (.ok resp) ∧ resp.result = "OK" := by
  intro rem
  induction rem with
  | zero =>
    intro a calls sleeps le hfuel h
    simp [verifyDigestGo] at h
  | succ rem ih =>
    intro a calls sleeps le hfuel h
    cases houta : outcomes a with
    | transport retryable emsg =>
      simp only [verifyDigestGo, houta] at h
      by_cases hc : (retryable = true ∧ a < rt)
      · rw [if_pos hc] at h
        obtain ⟨k, hk1, hk2, hk3, hk4⟩ := ih (a + 1) _ _ _ (by omega) h
        refine ⟨k, by omega, hk2, ?_, hk4⟩
        intro i hi1 hi2
        by_cases hia : i = a
        · subst hia
          exact ⟨emsg, by rw [houta, hc.1]⟩
        · exact hk3 i (by omega) hi2
      · rw [if_neg hc] at h
        simp at h
    | httpErr status errText =>
      simp only [verifyDigestGo, houta] at h
      simp at h
    | httpOk parsed =>
      cases parsed with
      | error e =>
        simp only [verifyDigestGo, houta] at h
        simp at h
      | ok resp =>
        simp only [verifyDigestGo, houta] at h
        by_cases hr : resp.result = "OK"
        · exact ⟨a, le_refl a, by omega, fun i hi1 hi2 => absurd hi2 (by omega),
            resp, houta, hr⟩
        · rw [if_neg hr] at h
          simp at h

theorem verifyDigestGo_prefix_okResp (outcomes : Nat → HttpOutcome VerifyDigestResponse)
    (rt : Nat) (url : String) (k : Nat) (resp : VerifyDigestResponse)
    (hk : k ≤ rt) (hresp : outcomes k = .httpOk (.ok resp)) (hOK : resp.result = "OK") :
    ∀ (n a calls sleeps : Nat) (le : Option String), k - a = n → a ≤ k →
      (∀ i, a ≤ i → i < k → ∃ m, outcomes i = .transport true m) →
      (verifyDigestGo outcomes rt url a (rt + 1 - a) calls sleeps le).result = .ok true := by
  intro n
  induction n with
  | zero =>
    intro a calls sleeps le hn ha _
    have hak : a = k := by omega
    subst hak
    have hfuel : rt + 1 - a = (rt - a) + 1 := by omega
    rw [hfuel]
    simp [verifyDigestGo, hresp, hOK]
  | succ n ih =>
    intro a calls sleeps le hn ha hfail
    have halt : a < k := by omega
    obtain ⟨m, hm⟩ := hfail a (le_refl a) halt
    have hfuel : rt + 1 - a = (rt - a) + 1 := by omega
    rw [hfuel]
    simp only [verifyDigestGo, hm]
    rw [if_pos ⟨trivial, by omega⟩]
    have hfuel2 : rt - a = rt + 1 - (a + 1) := by omega
    rw [hfuel2]
    exact ih (a + 1) (calls + 1) (sleeps + 1) _ (by omega) (by omega)
      (fun i hi1 hi2 => hfail i (by omega) hi2)

/-- C9: `verify_digest` never returns `Ok(false)`: a call returns
`Ok(true)` exactly when, after some prefix of retryable transport failures
within the retry budget, a success-status response arrives whose `result`
field is `"OK"`; every other execution returns `Err`.  Consequently the
`Ok(false)` arm of the network branch of `check_sigs` — the one producing
`SignatureError("网络签名验证失败")` — is unreachable whenever the PKI
oracle is `verify_digest`. -/
theorem c9_verify_digest_never_ok_false (rt : Nat) (url : String) :
    (∀ (outcomes : Nat → HttpOutcome VerifyDigestResponse) (b : Bool),
      (verify_digest outcomes rt url).result = .ok b → b = true) ∧
    (∀ (outcomes : Nat → HttpOutcome VerifyDigestResponse),
      (verify_digest outcomes rt url).result = .ok true ↔
        ∃ k, k ≤ rt ∧ (∀ i, i < k → ∃ m, outcomes i = .transport true m) ∧
          ∃ resp, outcomes k = .httpOk (.ok resp) ∧ resp.result = "OK") ∧
    (∀ (oc : String → String → String → BaseConfig → Nat → HttpOutcome VerifyDigestResponse)
        (sha256 : List Nat → List Nat)
        (decodePkcs : List Nat → List (List Nat) → Except CrateSpecError (List Nat))
        (decodeNetSig : List Nat → Option NetworkSignature)
        (root_cas : List (List Nat)) (bin_all bin_crate : List Nat) (s : SigInfo),
      s.typ = 2 →
      check_one_sig ⟨sha256, decodePkcs, decodeNetSig,
          some (fun pk d sg bc => (verify_digest (oc pk d sg bc) rt url).result)⟩
        root_cas bin_all bin_crate s ≠
        .error (.SignatureError "网络签名验证失败")) := by
  refine ⟨?_, ?_, ?_⟩
  · intro outcomes b h
    exact verifyDigestGo_ok_true outcomes rt url (rt + 1) 0 0 0 none b h
  · intro outcomes
    constructor
    · intro h
      obtain ⟨k, hk0, hk1, hk2, hk3⟩ := verifyDigestGo_ok_true_exists outcomes rt url
        (rt + 1) 0 0 0 none (by omega) h
      exact ⟨k, hk1, fun i hi => hk2 i (by omega) hi, hk3⟩
    · rintro ⟨k, hk1, hk2, resp, hk3, hk4⟩
      have hgo := verifyDigestGo_prefix_okResp outcomes rt url k resp hk1 hk3 hk4 k 0 0 0
        none (by omega) (by omega) (fun i _ h2 => hk2 i h2)
      rw [show rt + 1 - 0 = rt + 1 from rfl] at hgo
      exact hgo
  · intro oc sha256 decodePkcs decodeNetSig root_cas bin_all bin_crate s h2 hcon
    unfold check_one_sig at hcon
    rw [if_neg (by omega), if_pos h2] at hcon
    simp only [] at hcon
    cases hns : decodeNetSig s.bin with
    | none =>
      rw [hns] at hcon
      simp at hcon
    | some network_sig =>
      rw [hns] at hcon
      simp only [] at hcon
      split at hcon
      · simp at hcon
      · rename_i hfalse
        have hb := verifyDigestGo_ok_true _ rt url (rt + 1) 0 0 0 none false hfalse
        simp at hb
      · simp at hcon

theorem c9_verify_digest_never_ok_false_witness :
    check_one_sig ⟨(fun _ => []), (fun _ _ => .error (.Other "")), (fun _ => none),
        some (fun _ _ _ _ =>
          (verify_digest (fun _ => .httpOk (.ok ⟨"OK", none⟩)) 0 "u").result)⟩
      [] [] [] ⟨2, 0, [], none⟩ ≠
      .error (.SignatureError "网络签名验证失败") :=
  (c9_verify_digest_never_ok_false 0 "u").2.2
    (fun _ _ _ _ _ => .httpOk (.ok ⟨"OK", none⟩))
    (fun _ => []) (fun _ _ => .error (.Other "")) (fun _ => none) [] [] []
    ⟨2, 0, [], none⟩ rfl

/-- C3 (counterexample): on a 33-byte input whose trailer does not match
the digest, decode fails with `DecodeError("fingerprint not right")` — the
message is not the claim's "fingerprint mismatch". -/
theorem c3_counterexample_fingerprint_message :
    decode_from_crate_package (fun _ => List.replicate 32 0) (fun _ => .ok (0 : Nat))
        (List.replicate 33 1) = .error (.DecodeError "fingerprint not right") ∧
    "fingerprint not right" ≠ "fingerprint mismatch" := by
  constructor
  · rfl
  · decide

/-- C3 (amended): `decode_from_crate_package` accepts an input only if its
trailing 32 bytes equal the digest of all preceding bytes; whenever the
check fails it returns `DecodeError("fingerprint not right")` — a value
independent of the parsing/verification continuation, so no structural
parsing or signature verification is attempted — and whenever it passes it
runs the continuation. -/
theorem c3_decode_fingerprint_first {α : Type} (sha256 : List Nat → List Nat)
    (rest : List Nat → Except CrateSpecError α) (bin : List Nat) :
    (check_fingerprint sha256 bin = true →
        decode_from_crate_package sha256 rest bin = rest bin) ∧
    (check_fingerprint sha256 bin = false →
        decode_from_crate_package sha256 rest bin =
          .error (.DecodeError "fingerprint not right")) ∧
    (check_fingerprint sha256 bin = true ↔
        sha256 (bin.take (bin.length - 32)) = bin.drop (bin.length - 32)) := by
  refine ⟨?_, ?_, ?_⟩
  · intro h
    simp [decode_from_crate_package, h]
  · intro h
    simp [decode_from_crate_package, h]
  · simp [check_fingerprint, FINGERPRINT_LEN]

theorem c3_decode_fingerprint_first_witness :
    decode_from_crate_package (fun _ => List.replicate 32 0) (fun _ => .ok (0 : Nat))
        (List.replicate 33 1) = .error (.DecodeError "fingerprint not right") :=
  (c3_decode_fingerprint_first (fun _ => List.replicate 32 0) (fun _ => .ok 0)
    (List.replicate 33 1)).2.1 (by decide)

theorem strOrAbsent_cases (o : Option TomlVal) (h : strOrAbsent o = true) :
    o = none ∨ ∃ s, o = some (.vStr s) := by
  cases o with
  | none => exact Or.inl rfl
  | some v =>
    cases v with
    | vStr s => exact Or.inr ⟨s, rfl⟩
    | vTable m => simp [strOrAbsent] at h
    | vOther => simp [strOrAbsent] at h

theorem processDep_wf (platform name : String) (v : TomlVal) (h : TomlDepWF v) :
    ∃ d, processDep platform name v = .ok d ∧
      ((expectedDep platform name v = some d ∧ d.dump = true) ∨
       (expectedDep platform name v = none ∧ d.dump = false ∧ d.name = name)) := by
  cases v with
  | vStr s => exact ⟨⟨name, s, .CratesIo, platform, true⟩, rfl, Or.inl ⟨rfl, rfl⟩⟩
  | vOther => exact absurd h (by simp [TomlDepWF])
  | vTable m =>
    obtain ⟨hv, hg, hr⟩ := h
    rcases strOrAbsent_cases _ hv with hv0 | ⟨sv, hv0⟩ <;>
      rcases strOrAbsent_cases _ hg with hg0 | ⟨sg, hg0⟩ <;>
        rcases strOrAbsent_cases _ hr with hr0 | ⟨sr, hr0⟩ <;>
    · by_cases hall : ∀ kv ∈ m, kv.1 = "version" ∨ kv.1 = "git" ∨ kv.1 = "registry"
      · have hdump : (decide (∀ kv ∈ m,
            kv.1 = "version" ∨ kv.1 = "git" ∨ kv.1 = "registry")) = true := by
          simp only [decide_eq_true_eq]
          exact hall
        simp only [processDep, expectedDep, hv0, hg0, hr0, hdump, if_pos hall]
        exact ⟨_, rfl, Or.inl ⟨by trivial, by trivial⟩⟩
      · have hdump : (decide (∀ kv ∈ m,
            kv.1 = "version" ∨ kv.1 = "git" ∨ kv.1 = "registry")) = false := by
          simp only [decide_eq_false_iff_not]
          exact hall
        simp only [processDep, expectedDep, hv0, hg0, hr0, hdump, if_neg hall]
        exact ⟨_, rfl, Or.inr ⟨by trivial, by trivial, by trivial⟩⟩

theorem depInfo_dump_true (d : DepInfo) (h : d.dump = true) :
    ({ d with dump := true } : DepInfo) = d := by
  obtain ⟨n, vr, sr, pl, du⟩ := d
  simp only at h
  rw [h]

/-- C6: for every dependency table (each value a string or a table whose
recognised keys hold strings, as manifests do), ingest appends to the
context exactly the dependencies whose table value uses only the keys
`{version, git, registry}` — with a `registry` key mapping to
`SrcType::Registry`, otherwise a `git` key to `SrcType::Git`, and
otherwise `SrcType::CratesIo` — and returns exactly the names of the
dependencies with any other key as the excluded list, leaving them out of
the context's dependency list (hence out of the encoded dep table). -/
theorem c6_dep_ingest (platform : String) (dep_infos : List DepInfo)
    (deps : List (String × TomlVal)) (hwf : ∀ p ∈ deps, TomlDepWF p.2) :
    write_dep_info_to_package_context dep_infos platform deps =
      .ok (dep_infos ++ deps.filterMap (fun p => expectedDep platform p.1 p.2),
           (deps.filter (fun p => (expectedDep platform p.1 p.2).isNone)).map Prod.fst) := by
  induction deps generalizing dep_infos with
  | nil => simp [write_dep_info_to_package_context]
  | cons p rest ih =>
    obtain ⟨name, val⟩ := p
    obtain ⟨d, hd, hcase⟩ := processDep_wf platform name val (hwf (name, val) (by simp))
    have hwf' : ∀ q ∈ rest, TomlDepWF q.2 := fun q hq => hwf q (by simp [hq])
    simp only [write_dep_info_to_package_context, hd]
    rcases hcase with ⟨hexp, hdump⟩ | ⟨hexp, hdump, hname⟩
    · rw [if_pos hdump]
      rw [ih _ hwf']
      rw [depInfo_dump_true d hdump]
      simp [List.filterMap_cons, List.filter_cons, hexp, List.append_assoc]
    · rw [if_neg (by simp [hdump])]
      rw [ih _ hwf']
      simp [List.filterMap_cons, List.filter_cons, hexp]

theorem c6_dep_ingest_witness :
    write_dep_info_to_package_context [] ""
        [("baz", .vTable [("version", .vStr "1"), ("path", .vStr "../baz")]),
         ("toml", .vStr "1.0"),
         ("bar", .vTable [("git", .vStr "http://git")])] =
      .ok ([] ++
          ([("baz", TomlVal.vTable [("version", .vStr "1"), ("path", .vStr "../baz")]),
            ("toml", TomlVal.vStr "1.0"),
            ("bar", TomlVal.vTable [("git", .vStr "http://git")])].filterMap
            (fun p => expectedDep "" p.1 p.2)),
         (([("baz", TomlVal.vTable [("version", .vStr "1"), ("path", .vStr "../baz")]),
            ("toml", TomlVal.vStr "1.0"),
            ("bar", TomlVal.vTable [("git", .vStr "http://git")])].filter
            (fun p => (expectedDep "" p.1 p.2).isNone)).map Prod.fst)) :=
  c6_dep_ingest "" []
    [("baz", .vTable [("version", .vStr "1"), ("path", .vStr "../baz")]),
     ("toml", .vStr "1.0"),
     ("bar", .vTable [("git", .vStr "http://git")])]
    (by
      intro p hp
      simp only [List.mem_cons, List.not_mem_nil, or_false] at hp
      rcases hp with h | h | h
      · subst h; exact ⟨rfl, rfl, rfl⟩
      · subst h; trivial
      · subst h; exact ⟨rfl, rfl, rfl⟩)

end CrateSpec


